import Mathlib

/-!
Verification of the orbitplayground simulation-and-timeline engine.

The definitions below are a shallow embedding of the Rust sources:
`src/body.rs` (bodies, the id registry, the sorted body store),
`src/universe.rs` (the physics step), `src/world.rs` (the generation
pipeline), and `src/save.rs` (serialization of the timeline).
Machine `f64` arithmetic is modelled by real numbers; `usize` by `Nat`
with explicit wraparound at `2 ^ 64` where overflow matters.
-/

namespace Orbit

/-! ## Vectors (cgmath `Vector2<f64>`, modelled as pairs of reals) -/

/-- Scalar multiplication on the right, matching cgmath `v * c`. -/
def smulV (v : ℝ × ℝ) (c : ℝ) : ℝ × ℝ := (v.1 * c, v.2 * c)

/-- cgmath `magnitude2`: the dot product of the vector with itself. -/
def magnitude2 (v : ℝ × ℝ) : ℝ := v.1 * v.1 + v.2 * v.2

/-- cgmath `magnitude`: Euclidean norm. -/
noncomputable def magnitudeV (v : ℝ × ℝ) : ℝ := Real.sqrt (magnitude2 v)

/-- cgmath `normalize`: `self * (1 / self.magnitude())`. -/
noncomputable def normalizeV (v : ℝ × ℝ) : ℝ × ℝ := smulV v (1 / magnitudeV v)

/-! ## Bodies (`src/body.rs`) -/

/-- `Body` from `src/body.rs`. -/
structure Body where
  name : String
  pos : ℝ × ℝ
  vel : ℝ × ℝ
  radius : ℝ
  density : ℝ
  color : ℝ × ℝ × ℝ

/-- `Body::mass`: `density * PI * (radius * radius)`. -/
noncomputable def Body.mass (b : Body) : ℝ := b.density * Real.pi * (b.radius * b.radius)

/-- A throwaway body used as the default for `List.getD`; the physics code
only indexes in bounds, so it is never read. -/
def dummyBody : Body :=
  { name := "", pos := (0, 0), vel := (0, 0), radius := 0, density := 0, color := (0, 0, 0) }

def dummyPair : ℕ × Body := (0, dummyBody)

/-! ## Entity registry (`BodyId::next_id`, `src/body.rs` lines 24-35)

The `static ID: AtomicUsize` counter starts at 1.  `fetch_add(1, Relaxed)`
returns the old value and wraps modulo `2 ^ 64`; `NonZeroUsize::new` fails
on 0, in which case the process aborts (modelled as `none`). -/

/-- One call to `BodyId::next_id` with counter value `c` (`c < 2 ^ 64`):
returns the minted id together with the new counter value, or `none` when
the process aborts because the wrapped counter reached zero. -/
def nextId (c : ℕ) : Option (ℕ × ℕ) :=
  if c = 0 then none else some (c, (c + 1) % 2 ^ 64)

/-- Run `n` consecutive calls to `next_id` from counter value `c`,
collecting the minted ids and the final counter value; `none` when some
call aborts. -/
def runIds (c : ℕ) : ℕ → Option (List ℕ × ℕ)
  | 0 => some ([], c)
  | n + 1 =>
    (nextId c).bind fun ic => (runIds ic.2 n).map fun lf => (ic.1 :: lf.1, lf.2)

/-! ## Body store (`BodyList`, `src/body.rs`)

`BodyList` is a `Vec<(BodyId, Body)>`; lookups use
`binary_search_by_key(&id, |&(id, _)| id)`, whose loop is embedded below
(with fuel; the fuel never runs out for the fuel supplied by
`binarySearch`, as proved later). -/

/-- Keys of the backing vector, in storage order. -/
def keysOf (l : List (ℕ × Body)) : List ℕ := l.map Prod.fst

/-- The loop of Rust `slice::binary_search_by` over the key list:
`left`/`right` bracket the search window, `Except.ok i` means the key was
found at index `i`, `Except.error j` gives the insertion point. -/
def bsLoop (keys : List ℕ) (key : ℕ) : ℕ → ℕ → ℕ → Except ℕ ℕ
  | 0, left, _ => .error left
  | fuel + 1, left, right =>
    if left < right then
      let mid := left + (right - left) / 2
      let k := keys.getD mid 0
      if k < key then bsLoop keys key fuel (mid + 1) right
      else if key < k then bsLoop keys key fuel left mid
      else .ok mid
    else .error left

/-- `slice::binary_search_by_key` on the id column. -/
def binarySearch (keys : List ℕ) (key : ℕ) : Except ℕ ℕ :=
  bsLoop keys key (keys.length + 1) 0 keys.length

/-- The sortedness invariant of the store: ids strictly ascending. -/
def SortedKeys (l : List (ℕ × Body)) : Prop :=
  List.Pairwise (· < ·) (keysOf l)

/-- `BodyList::insert`: panics (modelled `none`) when the id is already
present, otherwise inserts at the position reported by binary search. -/
def insertB (l : List (ℕ × Body)) (id : ℕ) (b : Body) : Option (List (ℕ × Body)) :=
  match binarySearch (keysOf l) id with
  | .ok _ => none
  | .error j => some (l.insertIdx j (id, b))

/-- `BodyList::push`: appends the freshly minted id at the end of the
backing vector (the id argument stands for `BodyId::next_id()`). -/
def pushB (l : List (ℕ × Body)) (id : ℕ) (b : Body) : List (ℕ × Body) :=
  l ++ [(id, b)]

/-- `BodyList::get`. -/
def getB (l : List (ℕ × Body)) (id : ℕ) : Option Body :=
  match binarySearch (keysOf l) id with
  | .ok i => some (l.getD i dummyPair).2
  | .error _ => none

/-- `BodyList::remove`: returns the removed body and the remaining store,
or `none` when the id is absent. -/
def removeB (l : List (ℕ × Body)) (id : ℕ) : Option (Body × List (ℕ × Body)) :=
  match binarySearch (keysOf l) id with
  | .ok i => some ((l.getD i dummyPair).2, l.eraseIdx i)
  | .error _ => none

/-! ## Pairwise iteration (`BodyList::iter_mut_pairs`, `src/body.rs` lines 101-108)

`for i in 0..n { for j in i+1..n { f(a_id, a, b_id, b) } }`, each call
seeing the store as mutated by the previous calls. -/

/-- The sequence of index pairs visited by the double loop of
`iter_mut_pairs`, in program order. -/
def pairSeq (n : ℕ) : List (ℕ × ℕ) :=
  (List.range n).flatMap fun i => (List.range' (i + 1) (n - (i + 1))).map fun j => (i, j)

/-- Apply the callback to the entries at positions `i` and `j` (obtained
via `get_disjoint_mut([i, j])`) and write both results back.  The ids are
left untouched, as in the source, where the closure receives them read-only. -/
def applyPairAt (f : Body → Body → Body × Body) (l : List (ℕ × Body)) (p : ℕ × ℕ) :
    List (ℕ × Body) :=
  let a := l.getD p.1 dummyPair
  let b := l.getD p.2 dummyPair
  let r := f a.2 b.2
  (l.set p.1 (a.1, r.1)).set p.2 (b.1, r.2)

/-- `iter_mut_pairs f`: fold the callback over the visited index pairs. -/
def iterMutPairs (f : Body → Body → Body × Body) (l : List (ℕ × Body)) :
    List (ℕ × Body) :=
  (pairSeq l.length).foldl (applyPairAt f) l

/-! ## Universe and its physics step (`src/universe.rs`) -/

/-- `Universe` from `src/universe.rs`. -/
structure Universe where
  bodies : List (ℕ × Body)
  gravity : ℝ
  changed : Bool

/-- `Universe::new(gravity)`. -/
def Universe.new (gravity : ℝ) : Universe :=
  { bodies := [], gravity := gravity, changed := true }

/-- The manual `Clone for Universe`: clones bodies, keeps gravity, and
resets `changed` to `false`. -/
def cloneU (u : Universe) : Universe :=
  { bodies := u.bodies, gravity := u.gravity, changed := false }

/-- The closure passed to `iter_mut_pairs` by `Universe::step`
(`src/universe.rs` lines 31-38): both velocity updates are applied in the
same pass; `a`'s mass is read after `a`'s velocity update, which is
irrelevant since mass ignores velocity. -/
noncomputable def pairGravity (gravity dt : ℝ) (a b : Body) : Body × Body :=
  let a_to_b := b.pos - a.pos
  let dist2 := magnitude2 a_to_b
  let a' : Body := { a with vel := a.vel + smulV (smulV (normalizeV a_to_b) (gravity * b.mass / dist2)) dt }
  let b' : Body := { b with vel := b.vel - smulV (smulV (normalizeV a_to_b) (gravity * a'.mass / dist2)) dt }
  (a', b')

/-- `Universe::step(&mut self, dt)`: the value held by the receiver after
the call (pairwise velocity updates, then `pos += vel * dt` for every
body).  The `changed` flag is not touched. -/
noncomputable def stepU (u : Universe) (dt : ℝ) : Universe :=
  { u with
    bodies :=
      (iterMutPairs (pairGravity u.gravity dt) u.bodies).map fun p =>
        (p.1, { p.2 with pos := p.2.pos + smulV p.2.vel dt }) }

/-- The producer's derivation of one future snapshot
(`src/world.rs` lines 168-169): `old_state.clone()` followed by
`new_state.step(step_size)`. -/
noncomputable def produceNext (u : Universe) (dt : ℝ) : Universe :=
  stepU (cloneU u) dt

/-- The consumer's edit branch marking the present snapshot
(`src/world.rs` line 665): `self.states[self.current_state].changed = true`. -/
def markCurrent (states : List Universe) (i : ℕ) : List Universe :=
  states.set i { states.getD i (Universe.new 0) with changed := true }

/-! ## Generation pipeline (`src/world.rs` lines 149-183 and 662-680)

The pipeline logic never inspects a snapshot: it only clones, steps and
moves them.  It is therefore embedded parametrically in the snapshot type
`σ` and the step-size type `H`, with the producer's per-snapshot work
given by a function `f : H → σ → σ`; the program instantiates `σ` with
`Universe`, `H` with `ℝ` and `f` with `produceNext` flipped (clone + step).

Atomic transitions correspond to the intervals during which the mutex of
`ThreadState.generation_state` is held: the producer holds it from the top
of its loop until it either starts computing (`drop(lock)` at line 166) or
parks on the condvar, and again from reacquisition (line 171) through the
push and the next loop-top checks until the next release. -/

/-- `GenerationState` from `src/world.rs` lines 17-22. -/
structure GenState (σ H : Type) where
  initial : Option σ
  newStates : List σ
  bufSize : ℕ
  stepSize : H

/-- The producer's position between lock-held sections: parked on the
condvar with local working state `w`, or computing outside the lock with
working state `w` and pending result `c`. -/
inductive ProducerPC (σ : Type) where
  | idle (w : Option σ)
  | computing (w : σ) (c : σ)

/-- The whole pipeline: shared state, producer position and the
consumer's timeline (`World::states`). -/
structure PipeState (σ H : Type) where
  gen : GenState σ H
  prod : ProducerPC σ
  timeline : List σ

/-- The producer's loop-top pass while holding the lock
(`src/world.rs` lines 154-166): take a pending seed (discarding all
buffered output), then either park (buffer full, or no working state) or
read the step size and start computing the next snapshot. -/
def lockPass {σ H : Type} (f : H → σ → σ) (g : GenState σ H) (w : Option σ) :
    GenState σ H × ProducerPC σ :=
  let gw : GenState σ H × Option σ :=
    match g.initial with
    | some u => ({ g with initial := none, newStates := [] }, some u)
    | none => (g, w)
  if gw.1.newStates.length ≥ gw.1.bufSize then (gw.1, .idle gw.2)
  else
    match gw.2 with
    | some s => (gw.1, .computing s (f gw.1.stepSize s))
    | none => (gw.1, .idle none)

/-- Pipeline events: a producer wakeup (condvar signal or spurious), the
producer finishing a compute and reacquiring the lock, the consumer's
re-seed branch (edit: truncate the timeline to `cut` entries, install the
seed, step size and target), and the consumer's drain branch (append all
buffered output to the timeline and retarget). -/
inductive Ev (σ H : Type) where
  | wake
  | finish
  | reseed (u : σ) (h : H) (t : ℕ) (cut : ℕ)
  | drain (t : ℕ)

/-- One atomic transition of the pipeline. -/
def stepEv {σ H : Type} (f : H → σ → σ) (S : PipeState σ H) : Ev σ H → PipeState σ H
  | .wake =>
    match S.prod with
    | .idle w =>
      let gp := lockPass f S.gen w
      { S with gen := gp.1, prod := gp.2 }
    | .computing _ _ => S
  | .finish =>
    match S.prod with
    | .computing w c =>
      if S.gen.newStates.length ≥ S.gen.bufSize then
        { S with prod := .idle (some w) }
      else
        let gp := lockPass f { S.gen with newStates := S.gen.newStates ++ [c] } (some c)
        { S with gen := gp.1, prod := gp.2 }
    | .idle _ => S
  | .reseed u h t cut =>
    { S with
      gen := { S.gen with initial := some u, stepSize := h, bufSize := t }
      timeline := S.timeline.take cut }
  | .drain t =>
    { S with
      gen := { S.gen with newStates := [], bufSize := t }
      timeline := S.timeline ++ S.gen.newStates }

/-- Run a list of events. -/
def runEv {σ H : Type} (f : H → σ → σ) (S : PipeState σ H) : List (Ev σ H) → PipeState σ H
  | [] => S
  | e :: es => runEv f (stepEv f S e) es

/-- Whether the event makes the producer take (`Option::take`) the
re-seed snapshot out of `initial_state`: a wakeup while a seed is
pending, or a finish that pushes its result (buffer below target) and
falls through to the loop top while a seed is pending. -/
def observesSeed {σ H : Type} (S : PipeState σ H) : Ev σ H → Bool
  | .wake =>
    match S.prod with
    | .idle _ => S.gen.initial.isSome
    | .computing _ _ => false
  | .finish =>
    match S.prod with
    | .computing _ _ =>
      decide (S.gen.newStates.length < S.gen.bufSize) && S.gen.initial.isSome
    | .idle _ => false
  | .reseed _ _ _ _ => false
  | .drain _ => false

/-- No event of the trace makes the producer take a re-seed snapshot. -/
def noTake {σ H : Type} (f : H → σ → σ) (S : PipeState σ H) : List (Ev σ H) → Bool
  | [] => true
  | e :: es => !observesSeed S e && noTake f (stepEv f S e) es

/-- No event of the trace is a consumer drain. -/
def noDrain {σ H : Type} : List (Ev σ H) → Bool
  | [] => true
  | e :: es =>
    (match e with
     | .drain _ => false
     | _ => noDrain es)

/-- `f` applied `n` times to the seed: the chain of snapshots the
producer derives from a freshly taken seed. -/
def chainIter {σ H : Type} (f : H → σ → σ) (h : H) (u : σ) : ℕ → σ
  | 0 => u
  | n + 1 => f h (chainIter f h u n)

/-! ## Persistence (`src/save.rs`)

A persisted timeline entry carries its timeline index, the gravity
constant, and the bodies keyed by the numeric rendering of their ids. -/

/-- The `UniverseSerializer`/`UniverseImpl` wire form of one persisted
timeline entry. -/
structure UniverseSer where
  index : ℕ
  gravity : ℝ
  bodies : List (ℕ × Body)

/-- `StatesSerializer` (`src/save.rs` lines 62-83): serialize exactly the
entries whose `changed` flag is set, tagged with their timeline index. -/
def serializeStates (states : List Universe) : List UniverseSer :=
  states.enum.filterMap fun p =>
    if p.2.changed then some ⟨p.1, p.2.gravity, p.2.bodies⟩ else none

/-- `id_to_body_id.entry(id).or_insert_with(BodyId::next_id)`: look up a
persisted numeric key in the remap table, minting a fresh id (and possibly
aborting) when absent.  Returns the mapped id, the table and the counter. -/
def remapId (m : List (ℕ × ℕ)) (c : ℕ) (id : ℕ) : Option (ℕ × List (ℕ × ℕ) × ℕ) :=
  match (m.find? fun p => p.1 == id).map Prod.snd with
  | some bid => some (bid, m, c)
  | none =>
    match nextId c with
    | none => none
    | some (bid, c') => some (bid, m ++ [(id, bid)], c')

/-- Rebuild one persisted body list through the id remap table, inserting
each body under its remapped id (`src/save.rs` lines 138-143);
`none` on abort or duplicate-id panic. -/
def rebuildBodies (m : List (ℕ × ℕ)) (c : ℕ) :
    List (ℕ × Body) → List (ℕ × Body) → Option (List (ℕ × Body) × List (ℕ × ℕ) × ℕ)
  | [], store => some (store, m, c)
  | (id, b) :: rest, store =>
    match remapId m c id with
    | none => none
    | some (bid, m', c') =>
      match insertB store bid b with
      | none => none
      | some store' => rebuildBodies m' c' rest store'

/-- Append `n` re-stepped snapshots, each derived from the current last
entry by `clone` + `step(step_size)` (`src/save.rs` lines 151-155). -/
noncomputable def appendSteps (stepSize : ℝ) (acc : List Universe) : ℕ → List Universe
  | 0 => acc
  | n + 1 => appendSteps stepSize (acc ++ [produceNext (acc.getLast?.getD (Universe.new 0)) stepSize]) n

/-- The deserialization loop (`src/save.rs` lines 132-156): for each
persisted entry, rebuild it with `changed := true`, then append
`peek().map_or(current_state, |u| u.index).saturating_sub(index)`
re-stepped snapshots. -/
noncomputable def deserLoop (stepSize : ℝ) (currentState : ℕ) :
    List UniverseSer → List (ℕ × ℕ) → ℕ → List Universe → Option (List Universe)
  | [], _, _, acc => some acc
  | e :: rest, m, c, acc =>
    match rebuildBodies m c e.bodies [] with
    | none => none
    | some (store, m', c') =>
      let newU : Universe := { bodies := store, gravity := e.gravity, changed := true }
      let stepCount := ((rest.head?.map UniverseSer.index).getD currentState) - e.index
      deserLoop stepSize currentState rest m' c' (appendSteps stepSize (acc ++ [newU]) stepCount)

/-- `Deserialize for Save` restricted to the states
(`src/save.rs` lines 117-161): checks `assert_eq!(states[0].index, 0)`
(panic modelled as `none`), then runs the reconstruction loop with the
given id-counter value. -/
noncomputable def deserStates (stepSize : ℝ) (currentState : ℕ)
    (entries : List UniverseSer) (c : ℕ) : Option (List Universe) :=
  match entries with
  | [] => none
  | e :: _ =>
    if e.index = 0 then deserLoop stepSize currentState entries [] c [] else none

/-! ## The two-body scenario of the spec's end-to-end test -/

/-- Body A: radius 1, density 1/π (mass 1), at (-5, 0), at rest. -/
noncomputable def bodyA : Body :=
  { name := "A", pos := (-5, 0), vel := (0, 0), radius := 1, density := 1 / Real.pi
    color := (1, 1, 1) }

/-- Body B: radius 1, density 1/π (mass 1), at (5, 0), at rest. -/
noncomputable def bodyB : Body :=
  { name := "B", pos := (5, 0), vel := (0, 0), radius := 1, density := 1 / Real.pi
    color := (1, 1, 1) }

/-- The two-body universe with gravity constant 1. -/
noncomputable def twoBodyU : Universe :=
  { bodies := [(1, bodyA), (2, bodyB)], gravity := 1, changed := false }

lemma sep_eq : bodyB.pos - bodyA.pos = ((10 : ℝ), (0 : ℝ)) := by
  simp only [bodyA, bodyB, Prod.mk_sub_mk]
  norm_num

lemma mass_bodyA : Body.mass bodyA = 1 := by
  simp only [Body.mass, bodyA]
  field_simp

lemma mass_bodyB : Body.mass bodyB = 1 := by
  simp only [Body.mass, bodyB]
  field_simp

lemma normalize_sep : normalizeV ((10 : ℝ), (0 : ℝ)) = (1, 0) := by
  simp only [normalizeV, magnitudeV, magnitude2, smulV]
  norm_num
  rw [show (100 : ℝ) = 10 ^ 2 by norm_num, Real.sqrt_sq (by norm_num : (0 : ℝ) ≤ 10)]
  norm_num

/-- Velocity of body A after one step of the two-body universe. -/
lemma velA_eq :
    ((stepU twoBodyU (1 / 128)).bodies.getD 0 dummyPair).2.vel = ((1 / 12800 : ℝ), (0 : ℝ)) := by
  show bodyA.vel +
      smulV (smulV (normalizeV (bodyB.pos - bodyA.pos))
        ((1 : ℝ) * Body.mass bodyB / magnitude2 (bodyB.pos - bodyA.pos))) (1 / 128) =
      ((1 / 12800 : ℝ), (0 : ℝ))
  rw [sep_eq, normalize_sep, mass_bodyB]
  simp only [bodyA, magnitude2, smulV, Prod.mk_add_mk]
  norm_num

/-- Velocity of body B after one step of the two-body universe. -/
lemma velB_eq :
    ((stepU twoBodyU (1 / 128)).bodies.getD 1 dummyPair).2.vel = ((-(1 / 12800) : ℝ), (0 : ℝ)) := by
  show bodyB.vel -
      smulV (smulV (normalizeV (bodyB.pos - bodyA.pos))
        ((1 : ℝ) *
          Body.mass { bodyA with
            vel := bodyA.vel +
              smulV (smulV (normalizeV (bodyB.pos - bodyA.pos))
                ((1 : ℝ) * Body.mass bodyB / magnitude2 (bodyB.pos - bodyA.pos))) (1 / 128) } /
          magnitude2 (bodyB.pos - bodyA.pos))) (1 / 128) =
      ((-(1 / 12800) : ℝ), (0 : ℝ))
  have hmA : Body.mass { bodyA with
      vel := bodyA.vel +
        smulV (smulV (normalizeV (bodyB.pos - bodyA.pos))
          ((1 : ℝ) * Body.mass bodyB / magnitude2 (bodyB.pos - bodyA.pos))) (1 / 128) } = 1 := by
    simpa only [Body.mass] using mass_bodyA
  rw [sep_eq, normalize_sep] at hmA ⊢
  rw [hmA]
  simp only [bodyB, magnitude2, smulV, Prod.mk_sub_mk]
  norm_num

/-- C2 (counterexample): in the two-body scenario (radius 1, density 1/π,
positions (±5, 0), at rest, G = 1, dt = 1/128), body A's velocity after
one step is NOT `(0.1/128, 0)` as the claim states: the code produces
`G·mass/r²·dt = 0.01/128`, one tenth of the claimed value. -/
theorem c2_counterexample :
    ((stepU twoBodyU (1 / 128)).bodies.getD 0 dummyPair).2.vel ≠ ((0.1 / 128 : ℝ), (0 : ℝ)) := by
  rw [velA_eq]
  intro h
  have h1 : (1 / 12800 : ℝ) = 0.1 / 128 := congrArg Prod.fst h
  norm_num at h1

/-- C2 (amended): after one step of the two-body scenario, body A's
velocity equals `(1,0)·G·mass/r²·dt = (0.01/128, 0) = (1/12800, 0)`
(approximately `(0.000078, 0)`), pointing toward B, and body B's velocity
is the exact negation of A's. -/
theorem c2_amended :
    ((stepU twoBodyU (1 / 128)).bodies.getD 0 dummyPair).2.vel = ((1 / 12800 : ℝ), (0 : ℝ)) ∧
    ((stepU twoBodyU (1 / 128)).bodies.getD 1 dummyPair).2.vel =
      -((stepU twoBodyU (1 / 128)).bodies.getD 0 dummyPair).2.vel := by
  refine ⟨velA_eq, ?_⟩
  rw [velA_eq, velB_eq, Prod.neg_mk]
  norm_num

/-- C3: Newton's third law for the pairwise gravity update of one physics
step: for every gravity constant, step size and pair of bodies, the
velocity changes imparted by `pairGravity` satisfy
`mass(a) · Δvel_a = -(mass(b) · Δvel_b)` exactly in the real-number model
(hence certainly up to floating-point tolerance). -/
theorem c3_newton_third_law (g dt : ℝ) (a b : Body) :
    smulV ((pairGravity g dt a b).1.vel - a.vel) (Body.mass a) =
      -(smulV ((pairGravity g dt a b).2.vel - b.vel) (Body.mass b)) := by
  show smulV ((a.vel + smulV (smulV (normalizeV (b.pos - a.pos))
        (g * Body.mass b / magnitude2 (b.pos - a.pos))) dt) - a.vel) (Body.mass a) = _
  apply Prod.ext <;>
    · simp only [pairGravity, Body.mass, smulV, Prod.fst_sub, Prod.snd_sub, Prod.fst_add,
        Prod.snd_add, Prod.fst_neg, Prod.snd_neg]
      ring

/-- C4 (counterexample): `Universe::step` takes `&mut self` and mutates
its input snapshot in place.  In the state-passing embedding (`stepU u dt`
is the value held by the receiver after the call), non-mutation would mean
`stepU u dt = u`; this fails at the concrete two-body universe. -/
theorem c4_counterexample : stepU twoBodyU (1 / 128) ≠ twoBodyU := by
  intro h
  have hv : ((stepU twoBodyU (1 / 128)).bodies.getD 0 dummyPair).2.vel.1 =
      (twoBodyU.bodies.getD 0 dummyPair).2.vel.1 := by rw [h]
  rw [velA_eq] at hv
  simp only [twoBodyU, bodyA, List.getD_cons_zero] at hv
  norm_num at hv

/-- C4 (amended): `Universe::step` mutates its receiver in place, but
every derivation site (producer loop, deserializer) steps a fresh clone
(`produceNext`), so snapshots already stored remain valid: appending a
produced snapshot to a buffer leaves every previously stored entry
unchanged. -/
theorem c4_amended (buf : List Universe) (u : Universe) (dt : ℝ) (i : ℕ)
    (hi : i < buf.length) :
    (buf ++ [produceNext u dt]).getD i (Universe.new 0) = buf.getD i (Universe.new 0) := by
  rw [List.getD_append _ _ _ _ hi]

/-- C4 witness: the amended theorem at a concrete buffer and index. -/
theorem c4_witness :
    0 < ([Universe.new 1]).length ∧
    ([Universe.new 1] ++ [produceNext (Universe.new 1) 0]).getD 0 (Universe.new 0) =
      ([Universe.new 1]).getD 0 (Universe.new 0) :=
  ⟨by decide, c4_amended [Universe.new 1] (Universe.new 1) 0 0 (by decide)⟩

/-- C3 witness: Newton's third law at a concrete pair of bodies. -/
theorem c3_witness :
    smulV ((pairGravity 1 0 bodyA bodyB).1.vel - bodyA.vel) (Body.mass bodyA) =
      -(smulV ((pairGravity 1 0 bodyA bodyB).2.vel - bodyB.vel) (Body.mass bodyB)) :=
  c3_newton_third_law 1 0 bodyA bodyB

/-! ## The id registry theorems -/

lemma runIds_eq_range' :
    ∀ (n c : ℕ), 1 ≤ c → c < 2 ^ 64 → c + n ≤ 2 ^ 64 →
      runIds c n = some (List.range' c n, (c + n) % 2 ^ 64) := by
  intro n
  induction n with
  | zero =>
    intro c h1 hlt _
    simp only [runIds, List.range'_zero, Nat.add_zero, Nat.mod_eq_of_lt hlt]
  | succ n ih =>
    intro c h1 hlt hle
    have hc0 : c ≠ 0 := by omega
    rcases Nat.lt_or_ge (c + 1) (2 ^ 64) with hsm | hbig
    · have hrec := ih (c + 1) (by omega) hsm (by omega)
      rw [show c + 1 + n = c + (n + 1) from by omega] at hrec
      simp only [runIds, nextId, hc0, if_false, Nat.mod_eq_of_lt hsm, Option.some_bind,
        hrec, Option.map_some', List.range'_succ]
    · have hceq : c + 1 = 2 ^ 64 := by omega
      have hn0 : n = 0 := by omega
      subst hn0
      rw [show c + (0 + 1) = c + 1 from by omega, hceq]
      simp only [runIds, nextId, hc0, if_false, hceq, Nat.mod_self, Option.some_bind,
        Option.map_some', List.range'_succ, List.range'_zero]

lemma runIds_add (m : ℕ) :
    ∀ (c n : ℕ),
      runIds c (m + n) =
        (runIds c m).bind fun p => (runIds p.2 n).map fun q => (p.1 ++ q.1, q.2) := by
  induction m with
  | zero =>
    intro c n
    simp only [Nat.zero_add, runIds, Option.some_bind]
    cases runIds c n with
    | none => rfl
    | some p => rfl
  | succ m ih =>
    intro c n
    have hsum : m + 1 + n = (m + n) + 1 := by omega
    rw [hsum]
    simp only [runIds]
    cases nextId c with
    | none => rfl
    | some p =>
      simp only [Option.some_bind, ih p.2 n]
      cases hm : runIds p.2 m with
      | none => rfl
      | some q =>
        simp only [Option.some_bind, Option.map_some']
        cases hq : runIds q.2 n with
        | none => rfl
        | some r => simp

/-- C7: every id returned by `BodyId::next_id` is strictly positive; a run
of `n ≤ 2^64 - 1` calls from the initial counter value 1 returns the ids
`1, 2, …, n` — pairwise strictly increasing, hence never repeating — and
the call that would exhaust the id space aborts the process (`none`)
instead of returning a duplicate. -/
theorem c7_registry :
    (∀ c id c', nextId c = some (id, c') → 0 < id) ∧
    (∀ n, 1 + n ≤ 2 ^ 64 →
      runIds 1 n = some (List.range' 1 n, (1 + n) % 2 ^ 64) ∧
      List.Pairwise (· < ·) (List.range' 1 n) ∧ (List.range' 1 n).Nodup ∧
      ∀ x ∈ List.range' 1 n, 0 < x) ∧
    runIds 1 (2 ^ 64) = none := by
  refine ⟨?_, ?_, ?_⟩
  · intro c id c' h
    by_cases hc : c = 0
    · simp [nextId, hc] at h
    · simp only [nextId, hc, if_false, Option.some.injEq, Prod.mk.injEq] at h
      omega
  · intro n hn
    refine ⟨runIds_eq_range' n 1 le_rfl (by norm_num) hn, List.pairwise_lt_range' 1 n,
      List.nodup_range' 1 n, ?_⟩
    intro x hx
    have := List.mem_range'_1.mp hx
    omega
  · have hsplit : (2 : ℕ) ^ 64 = (2 ^ 64 - 1) + 1 := by norm_num
    rw [hsplit, runIds_add]
    rw [runIds_eq_range' (2 ^ 64 - 1) 1 le_rfl (by norm_num) (by norm_num)]
    have : (1 + (2 ^ 64 - 1)) % 2 ^ 64 = 0 := by
      rw [show 1 + (2 ^ 64 - 1) = 2 ^ 64 by norm_num, Nat.mod_self]
    rw [this]
    simp [runIds, nextId]

/-- C7 witness: a concrete positive id from `next_id` and a concrete run
of three mints. -/
theorem c7_witness :
    0 < 7 ∧ runIds 1 3 = some (List.range' 1 3, (1 + 3) % 2 ^ 64) :=
  ⟨c7_registry.1 7 7 8 (by decide), (c7_registry.2.1 3 (by decide)).1⟩

/-! ## The changed flag -/

/-- C8: the `changed` flag.  `Universe::step` never touches the flag, the
manual `Clone` resets it to `false`, hence every snapshot the producer or
the deserializer derives by clone-then-step carries `changed = false`; and
the consumer's edit branch (`gen_future`, modelled by `markCurrent`) sets
the present entry's flag to `true` while leaving every other entry of the
timeline untouched. -/
theorem c8_changed_flag :
    (∀ (u : Universe) (dt : ℝ), (stepU u dt).changed = u.changed) ∧
    (∀ u : Universe, (cloneU u).changed = false) ∧
    (∀ (u : Universe) (dt : ℝ), (produceNext u dt).changed = false) ∧
    (∀ (states : List Universe) (i : ℕ), i < states.length →
      ((markCurrent states i).getD i (Universe.new 0)).changed = true ∧
      ∀ j, j ≠ i →
        (markCurrent states i).getD j (Universe.new 0) = states.getD j (Universe.new 0)) := by
  refine ⟨fun u dt => rfl, fun u => rfl, fun u dt => rfl, ?_⟩
  intro states i hi
  constructor
  · rw [markCurrent, List.getD_eq_getElem?_getD, List.getElem?_set_self hi]
    rfl
  · intro j hj
    rw [markCurrent, List.getD_eq_getElem?_getD, List.getElem?_set_ne (Ne.symm hj)]
    exact (List.getD_eq_getElem?_getD _ _ _).symm

/-- C8 witness: the flag behaviour at a concrete universe and timeline. -/
theorem c8_witness :
    (produceNext (Universe.new 1) 0).changed = false ∧
    (0 < 1 ∧ ((markCurrent [Universe.new 1] 0).getD 0 (Universe.new 0)).changed = true) :=
  ⟨c8_changed_flag.2.2.1 (Universe.new 1) 0,
    by decide, (c8_changed_flag.2.2.2 [Universe.new 1] 0 (by decide)).1⟩

/-! ## Pairwise iteration: C5 -/

lemma mem_pairSeq {n : ℕ} {q : ℕ × ℕ} : q ∈ pairSeq n ↔ q.1 < q.2 ∧ q.2 < n := by
  simp only [pairSeq, List.mem_flatMap, List.mem_map, List.mem_range, List.mem_range'_1]
  constructor
  · rintro ⟨i, hi, j, ⟨hj1, hj2⟩, rfl⟩
    constructor <;> simp <;> omega
  · rintro ⟨h1, h2⟩
    exact ⟨q.1, by omega, q.2, ⟨by omega, by omega⟩, rfl⟩

lemma nodup_pairSeq (n : ℕ) : (pairSeq n).Nodup := by
  refine List.nodup_flatMap.2 ⟨?_, ?_⟩
  · intro i _
    refine (List.nodup_range' _ _).map ?_
    intro a b h
    simpa using h
  · have hlt : (List.range n).Pairwise (· < ·) := List.pairwise_lt_range n
    refine hlt.imp ?_
    intro i1 i2 h x hx1 hx2
    obtain ⟨j1, _, rfl⟩ := List.mem_map.1 hx1
    obtain ⟨j2, _, hj⟩ := List.mem_map.1 hx2
    exact absurd (congrArg Prod.fst hj).symm (by omega)

lemma sum_range_gauss (n : ℕ) : 2 * (List.range n).sum = n * (n - 1) := by
  induction n with
  | zero => simp
  | succ m ih =>
    rw [List.range_succ, List.sum_append, List.sum_cons, List.sum_nil, Nat.succ_sub_one,
      Nat.mul_add, ih]
    cases m with
    | zero => simp
    | succ k =>
      rw [Nat.succ_sub_one]
      ring

lemma length_pairSeq (n : ℕ) : (pairSeq n).length = n * (n - 1) / 2 := by
  have hmap : (List.range n).map (fun i => n - (i + 1)) = (List.range' 0 n).reverse := by
    rw [List.reverse_range']
    exact List.map_congr_left fun i _ => by omega
  have hlen : (pairSeq n).length = (List.range n).sum := by
    simp only [pairSeq, List.length_flatMap, Function.comp_def, List.length_map,
      List.length_range']
    rw [hmap, List.sum_reverse, ← List.range_eq_range']
  have := sum_range_gauss n
  omega

lemma filter_single_of_nodup {α : Type} [DecidableEq α] :
    ∀ {l : List α} {a : α}, l.Nodup → a ∈ l → (l.filter fun x => x = a).length = 1 := by
  intro l
  induction l with
  | nil => intro a _ ha; cases ha
  | cons b t ih =>
    intro a hn ha
    have hbn : b ∉ t := (List.nodup_cons.1 hn).1
    have hnt : t.Nodup := (List.nodup_cons.1 hn).2
    by_cases hba : b = a
    · subst hba
      rw [List.filter_cons_of_pos (by simp)]
      have hnil : t.filter (fun x => x = b) = [] := by
        rw [List.filter_eq_nil_iff]
        intro x hx hxb
        exact hbn ((by simpa using hxb : x = b) ▸ hx)
      rw [hnil]
      rfl
    · rcases List.mem_cons.1 ha with h | hat
      · exact absurd h.symm hba
      · rw [List.filter_cons_of_neg (by simpa using hba)]
        exact ih hnt hat

/-- C5: the double loop of `iter_mut_pairs` visits, in `pairSeq n`, exactly
`n·(n-1)/2` index pairs; every visited pair has two distinct in-bound
indices (so `get_disjoint_mut` hands out non-aliasing references); and
each unordered pair of distinct indices occurs exactly once in the visit
sequence, so the callback fires exactly once per unordered pair of
distinct bodies. -/
theorem c5_iter_pairs (n : ℕ) :
    (pairSeq n).length = n * (n - 1) / 2 ∧
    (∀ q ∈ pairSeq n, q.1 < q.2 ∧ q.2 < n) ∧
    (∀ i j, i < j → j < n → ((pairSeq n).filter fun q => q = (i, j)).length = 1) := by
  refine ⟨length_pairSeq n, fun q hq => mem_pairSeq.1 hq, fun i j hij hjn => ?_⟩
  exact filter_single_of_nodup (nodup_pairSeq n)
    (mem_pairSeq.2 (show (i, j).1 < (i, j).2 ∧ (i, j).2 < n from ⟨hij, hjn⟩))

/-- C5 witness: the pair sequence for four bodies. -/
theorem c5_witness :
    ((pairSeq 4).length = 4 * (4 - 1) / 2 ∧
      ((pairSeq 4).filter fun q => q = (0, 1)).length = 1) ∧
    pairSeq 4 = [(0, 1), (0, 2), (0, 3), (1, 2), (1, 3), (2, 3)] :=
  ⟨⟨(c5_iter_pairs 4).1, (c5_iter_pairs 4).2.2 0 1 (by decide) (by decide)⟩, by decide⟩

/-! ## Binary search correctness -/

lemma sorted_getD_lt {keys : List ℕ} (hs : List.Pairwise (· < ·) keys) {a b : ℕ}
    (hab : a < b) (hb : b < keys.length) : keys.getD a 0 < keys.getD b 0 := by
  rw [List.getD_eq_getElem keys 0 (lt_trans hab hb), List.getD_eq_getElem keys 0 hb]
  exact List.pairwise_iff_getElem.1 hs a b (lt_trans hab hb) hb hab

/-- Full functional specification of the binary-search loop on a strictly
sorted key list: `ok i` finds the key at `i`, `error j` brackets it. -/
lemma bsLoop_spec (keys : List ℕ) (key : ℕ) (hs : List.Pairwise (· < ·) keys) :
    ∀ (fuel left right : ℕ), right ≤ keys.length → left ≤ right → right - left < fuel →
      (∀ a, a < left → keys.getD a 0 < key) →
      (∀ a, right ≤ a → a < keys.length → key < keys.getD a 0) →
      (match bsLoop keys key fuel left right with
       | .ok i => i < keys.length ∧ keys.getD i 0 = key
       | .error j => left ≤ j ∧ j ≤ right ∧ (∀ a, a < j → keys.getD a 0 < key) ∧
           (∀ a, j ≤ a → a < keys.length → key < keys.getD a 0)) := by
  intro fuel
  induction fuel with
  | zero => intro left right _ _ h _ _; omega
  | succ fuel ih =>
    intro left right hrlen hlr hfuel hlo hhi
    by_cases hlt : left < right
    · have hmidlt : left + (right - left) / 2 < right := by omega
      have hmidlen : left + (right - left) / 2 < keys.length := lt_of_lt_of_le hmidlt hrlen
      simp only [bsLoop, if_pos hlt]
      by_cases h1 : keys.getD (left + (right - left) / 2) 0 < key
      · rw [if_pos h1]
        have hlo' : ∀ a, a < left + (right - left) / 2 + 1 → keys.getD a 0 < key := by
          intro a ha
          rcases Nat.lt_or_ge a (left + (right - left) / 2) with h | h
          · exact lt_trans (sorted_getD_lt hs h hmidlen) h1
          · have : a = left + (right - left) / 2 := by omega
            rw [this]
            exact h1
        have hrec := ih (left + (right - left) / 2 + 1) right hrlen (by omega) (by omega)
          hlo' hhi
        cases hb : bsLoop keys key fuel (left + (right - left) / 2 + 1) right with
        | ok i => rw [hb] at hrec; exact hrec
        | error j =>
          rw [hb] at hrec
          exact ⟨by omega, hrec.2.1, hrec.2.2.1, hrec.2.2.2⟩
      · rw [if_neg h1]
        by_cases h2 : key < keys.getD (left + (right - left) / 2) 0
        · rw [if_pos h2]
          have hhi' : ∀ a, left + (right - left) / 2 ≤ a → a < keys.length →
              key < keys.getD a 0 := by
            intro a hma halen
            rcases Nat.eq_or_lt_of_le hma with h | h
            · rw [← h]
              exact h2
            · exact lt_trans h2 (sorted_getD_lt hs h halen)
          have hrec := ih left (left + (right - left) / 2) (le_of_lt hmidlen) (by omega)
            (by omega) hlo hhi'
          cases hb : bsLoop keys key fuel left (left + (right - left) / 2) with
          | ok i => rw [hb] at hrec; exact hrec
          | error j =>
            rw [hb] at hrec
            exact ⟨hrec.1, by omega, hrec.2.2.1, hrec.2.2.2⟩
        · rw [if_neg h2]
          exact ⟨hmidlen, by omega⟩
    · simp only [bsLoop, if_neg hlt]
      exact ⟨le_rfl, by omega, hlo, fun a ha _ => hhi a (by omega) (by assumption)⟩

/-- Specification of `binarySearch` on a strictly sorted key list. -/
lemma binarySearch_spec (keys : List ℕ) (key : ℕ) (hs : List.Pairwise (· < ·) keys) :
    (match binarySearch keys key with
     | .ok i => i < keys.length ∧ keys.getD i 0 = key
     | .error j => j ≤ keys.length ∧ (∀ a, a < j → keys.getD a 0 < key) ∧
         (∀ a, j ≤ a → a < keys.length → key < keys.getD a 0)) := by
  have h := bsLoop_spec keys key hs (keys.length + 1) 0 keys.length le_rfl (Nat.zero_le _)
    (by omega) (fun a ha => absurd ha (Nat.not_lt_zero a)) (fun a ha ha' => absurd ha' (by omega))
  rw [binarySearch]
  cases hb : bsLoop keys key (keys.length + 1) 0 keys.length with
  | ok i => rw [hb] at h; exact h
  | error j =>
    rw [hb] at h
    exact ⟨h.2.1, h.2.2⟩

/-- On a strictly sorted key list, binary search succeeds exactly on the
keys present in the list. -/
lemma binarySearch_found_iff (keys : List ℕ) (key : ℕ)
    (hs : List.Pairwise (· < ·) keys) :
    (∃ i, binarySearch keys key = .ok i) ↔ key ∈ keys := by
  have h := binarySearch_spec keys key hs
  constructor
  · rintro ⟨i, hi⟩
    rw [hi] at h
    rw [← h.2, List.getD_eq_getElem keys 0 h.1]
    exact List.getElem_mem h.1
  · intro hmem
    cases hb : binarySearch keys key with
    | ok i => exact ⟨i, rfl⟩
    | error j =>
      rw [hb] at h
      obtain ⟨i, hilen, hikey⟩ := List.mem_iff_getElem.1 hmem
      rcases Nat.lt_or_ge i j with hij | hij
      · have := h.2.1 i hij
        rw [List.getD_eq_getElem keys 0 hilen, hikey] at this
        omega
      · have := h.2.2 i hij hilen
        rw [List.getD_eq_getElem keys 0 hilen, hikey] at this
        omega

/-! ## Sorted-store lemmas -/

lemma sorted_insertIdx :
    ∀ (keys : List ℕ) (j key : ℕ), j ≤ keys.length → List.Pairwise (· < ·) keys →
      (∀ a, a < j → keys.getD a 0 < key) →
      (∀ a, j ≤ a → a < keys.length → key < keys.getD a 0) →
      List.Pairwise (· < ·) (keys.insertIdx j key) := by
  intro keys
  induction keys with
  | nil =>
    intro j key hj _ _ _
    have hj0 : j = 0 := by simpa using hj
    subst hj0
    simp
  | cons x t ih =>
    intro j key hj hp hlo hhi
    cases j with
    | zero =>
      simp only [List.insertIdx_zero]
      refine List.pairwise_cons.2 ⟨?_, hp⟩
      intro y hy
      obtain ⟨i, hilen, rfl⟩ := List.mem_iff_getElem.1 hy
      have := hhi i (Nat.zero_le i) hilen
      rwa [List.getD_eq_getElem _ 0 hilen] at this
    | succ j' =>
      simp only [List.insertIdx_succ_cons]
      have hx := List.pairwise_cons.1 hp
      refine List.pairwise_cons.2 ⟨?_, ?_⟩
      · intro y hy
        rcases (List.mem_insertIdx (by simpa using hj)).1 hy with rfl | hyt
        · have := hlo 0 (Nat.succ_pos j')
          simpa using this
        · exact hx.1 y hyt
      · refine ih j' key (by simpa using hj) hx.2 ?_ ?_
        · intro a ha
          have := hlo (a + 1) (by omega)
          simpa using this
        · intro a ha halen
          have := hhi (a + 1) (by omega) (by simpa using halen)
          simpa using this

lemma keysOf_insertIdx (l : List (ℕ × Body)) (j : ℕ) (p : ℕ × Body) :
    keysOf (l.insertIdx j p) = (keysOf l).insertIdx j p.1 := by
  induction l generalizing j with
  | nil => cases j <;> simp [keysOf]
  | cons q t ih =>
    cases j with
    | zero => simp [keysOf]
    | succ j' =>
      simp only [keysOf, List.insertIdx_succ_cons, List.map_cons]
      rw [show List.map Prod.fst (List.insertIdx j' p t) = keysOf (List.insertIdx j' p t)
        from rfl, ih j']
      rfl

lemma keysOf_length (l : List (ℕ × Body)) : (keysOf l).length = l.length :=
  List.length_map l Prod.fst

lemma keysOf_getD_fst (l : List (ℕ × Body)) {i : ℕ} (hi : i < l.length) :
    (keysOf l).getD i 0 = (l.getD i dummyPair).1 := by
  rw [List.getD_eq_getElem _ 0 (by rwa [keysOf_length]), List.getD_eq_getElem _ dummyPair hi]
  simp [keysOf]

/-- On a sorted store, `get` returns the body stored under a present id. -/
lemma getB_of_mem {l : List (ℕ × Body)} {id : ℕ} {b : Body} (hs : SortedKeys l)
    (hmem : (id, b) ∈ l) : getB l id = some b := by
  have hkmem : id ∈ keysOf l := List.mem_map.2 ⟨(id, b), hmem, rfl⟩
  obtain ⟨i, hok⟩ := (binarySearch_found_iff (keysOf l) id hs).2 hkmem
  have hspec := binarySearch_spec (keysOf l) id hs
  rw [hok] at hspec
  have hilen : i < l.length := by
    have := hspec.1
    rwa [keysOf_length] at this
  have hfst : (l.getD i dummyPair).1 = id := by
    rw [← keysOf_getD_fst l hilen]
    exact hspec.2
  obtain ⟨t, htlen, htval⟩ := List.mem_iff_getElem.1 hmem
  have hnd : (keysOf l).Nodup := hs.nodup
  have hlen1 : t < (keysOf l).length := by rwa [keysOf_length]
  have hlen2 : i < (keysOf l).length := by rwa [keysOf_length]
  have hti : t = i := by
    have h1 : (keysOf l)[t] = id := by
      have h1a : (keysOf l)[t] = l[t].1 := by simp [keysOf]
      rw [h1a, htval]
    have h2 : (keysOf l)[i] = id := by
      rw [← List.getD_eq_getElem _ 0 hlen2]
      exact hspec.2
    exact (List.Nodup.getElem_inj_iff hnd).1 (h1.trans h2.symm)
  simp only [getB, hok]
  subst hti
  rw [List.getD_eq_getElem _ dummyPair hilen, htval]

/-- On a sorted store, `get` succeeds exactly on stored pairs. -/
lemma getB_some_iff {l : List (ℕ × Body)} {id : ℕ} {b : Body} (hs : SortedKeys l) :
    getB l id = some b ↔ (id, b) ∈ l := by
  constructor
  · intro hget
    have hspec := binarySearch_spec (keysOf l) id hs
    rw [getB] at hget
    cases hok : binarySearch (keysOf l) id with
    | ok i =>
      rw [hok] at hget hspec
      have hilen : i < l.length := by
        have := hspec.1
        rwa [keysOf_length] at this
      have hb : (l.getD i dummyPair).2 = b := by
        simpa using hget
      have hfst : (l.getD i dummyPair).1 = id := by
        rw [← keysOf_getD_fst l hilen]
        exact hspec.2
      have : (id, b) = l.getD i dummyPair := by
        rw [← hfst, ← hb]
      rw [this, List.getD_eq_getElem _ dummyPair hilen]
      exact List.getElem_mem hilen
    | error j =>
      rw [hok] at hget
      cases hget
  · exact getB_of_mem hs

/-- On a sorted store, `get` fails exactly on absent ids. -/
lemma getB_none_iff {l : List (ℕ × Body)} {id : ℕ} (hs : SortedKeys l) :
    getB l id = none ↔ id ∉ keysOf l := by
  rw [← binarySearch_found_iff (keysOf l) id hs]
  rw [getB]
  cases hok : binarySearch (keysOf l) id with
  | ok i => simp [hok]
  | error j => simp [hok]

/-- C6: on a store satisfying the sortedness invariant, `insert` panics
(`none`) exactly when the id is already present — never silently
overwriting — and for an absent id it succeeds, afterwards storing the
body under that id (and preserving the invariant). -/
theorem c6_insert_semantics (l : List (ℕ × Body)) (id : ℕ) (b : Body) (hs : SortedKeys l) :
    (id ∈ keysOf l → insertB l id b = none) ∧
    (id ∉ keysOf l →
      ∃ l', insertB l id b = some l' ∧ getB l' id = some b ∧ SortedKeys l') := by
  constructor
  · intro hmem
    obtain ⟨i, hok⟩ := (binarySearch_found_iff (keysOf l) id hs).2 hmem
    rw [insertB, hok]
  · intro hnm
    cases hok : binarySearch (keysOf l) id with
    | ok i => exact absurd ((binarySearch_found_iff (keysOf l) id hs).1 ⟨i, hok⟩) hnm
    | error j =>
      have hspec := binarySearch_spec (keysOf l) id hs
      rw [hok] at hspec
      have hjlen : j ≤ l.length := by
        have := hspec.1
        rwa [keysOf_length] at this
      have hsorted' : SortedKeys (l.insertIdx j (id, b)) := by
        rw [SortedKeys, keysOf_insertIdx]
        exact sorted_insertIdx (keysOf l) j id (by rwa [keysOf_length]) hs
          hspec.2.1 hspec.2.2
      refine ⟨l.insertIdx j (id, b), by rw [insertB, hok], ?_, hsorted'⟩
      exact getB_of_mem hsorted' ((List.mem_insertIdx hjlen).2 (Or.inl rfl))

/-- C6 witness: insertion into a concrete sorted two-entry store. -/
theorem c6_witness :
    SortedKeys [(1, dummyBody), (3, dummyBody)] ∧
    insertB [(1, dummyBody), (3, dummyBody)] 2 dummyBody =
      some [(1, dummyBody), (2, dummyBody), (3, dummyBody)] ∧
    ∃ l', insertB [(1, dummyBody), (3, dummyBody)] 2 dummyBody = some l' ∧
      getB l' 2 = some dummyBody ∧ SortedKeys l' := by
  refine ⟨?_, rfl, ?_⟩
  · simp [SortedKeys, keysOf]
  · exact (c6_insert_semantics [(1, dummyBody), (3, dummyBody)] 2 dummyBody
      (by simp [SortedKeys, keysOf])).2 (by simp [keysOf])

/-- C10: the store operations preserve the strict id-sortedness invariant
(`insert` via the binary-search insertion point; `push` because the
freshly minted id — which `next_id` returns as the current counter value —
is strictly greater than every stored id, all minted earlier; `remove`
because erasing preserves order), and under the invariant the
binary-search lookups are correct: `get` succeeds exactly on stored pairs
and fails exactly on absent ids. -/
theorem c10_sorted_invariant (l : List (ℕ × Body)) (id c : ℕ) (b : Body)
    (hs : SortedKeys l) :
    (∀ l', insertB l id b = some l' → SortedKeys l') ∧
    ((∀ p ∈ l, p.1 < c) → SortedKeys (pushB l c b)) ∧
    (∀ id2 c2, nextId c = some (id2, c2) → id2 = c) ∧
    (∀ b' rest, removeB l id = some (b', rest) → SortedKeys rest) ∧
    (getB l id = some b ↔ (id, b) ∈ l) ∧
    (getB l id = none ↔ id ∉ keysOf l) := by
  refine ⟨?_, ?_, ?_, ?_, getB_some_iff hs, getB_none_iff hs⟩
  · intro l' hins
    cases hok : binarySearch (keysOf l) id with
    | ok i =>
      rw [insertB, hok] at hins
      cases hins
    | error j =>
      have hspec := binarySearch_spec (keysOf l) id hs
      rw [hok] at hspec
      rw [insertB, hok, Option.some.injEq] at hins
      rw [← hins, SortedKeys, keysOf_insertIdx]
      exact sorted_insertIdx (keysOf l) j id hspec.1 hs hspec.2.1 hspec.2.2
  · intro hfresh
    rw [SortedKeys, pushB, keysOf, List.map_append]
    refine List.pairwise_append.2 ⟨hs, List.pairwise_singleton _ _, ?_⟩
    intro x hx y hy
    obtain ⟨p, hp, rfl⟩ := List.mem_map.1 hx
    have hyc : y = c := by simpa using hy
    rw [hyc]
    exact hfresh p hp
  · intro id2 c2 h
    by_cases hc : c = 0
    · simp [nextId, hc] at h
    · simp only [nextId, hc, if_false, Option.some.injEq, Prod.mk.injEq] at h
      exact h.1.symm
  · intro b' rest hrem
    cases hok : binarySearch (keysOf l) id with
    | ok i =>
      rw [removeB, hok, Option.some.injEq] at hrem
      have : rest = l.eraseIdx i := (Prod.mk.injEq _ _ _ _ ▸ hrem).2.symm
      rw [this, SortedKeys]
      exact List.Pairwise.sublist ((l.eraseIdx_sublist i).map Prod.fst) hs
    | error j =>
      rw [removeB, hok] at hrem
      cases hrem

/-- C10 witness: the invariant and lookups at a concrete store. -/
theorem c10_witness :
    SortedKeys [(1, dummyBody), (3, dummyBody)] ∧
    SortedKeys (pushB [(1, dummyBody), (3, dummyBody)] 7 dummyBody) ∧
    getB [(1, dummyBody), (3, dummyBody)] 3 = some dummyBody := by
  have hs : SortedKeys [(1, dummyBody), (3, dummyBody)] := by simp [SortedKeys, keysOf]
  refine ⟨hs, ?_, ?_⟩
  · exact (c10_sorted_invariant _ 3 7 dummyBody hs).2.1 (by simp)
  · exact ((c10_sorted_invariant _ 3 7 dummyBody hs).2.2.2.2.1).2 (by simp)

/-- C9: serialization does emit exactly the changed subsequence (first
conjunct: a three-entry timeline with `changed` at indices 0 and 2 is
persisted as the two tagged entries with indices 0 and 2), but
deserialization misplaces every persisted entry after the first: between
consecutive persisted entries with indices `i < j` the loop appends
`j - i` re-stepped snapshots after pushing entry `i` — one more than the
`j - i - 1` skipped entries — so the entry persisted with index 2 ends at
position 3 of a four-entry timeline, position 2 holding a freshly stepped
(`changed = false`) snapshot instead (second conjunct).  The claim (and
the tagged indices) require the persisted index-2 entry at position 2 of a
three-entry reconstruction. -/
theorem c9_roundtrip_misaligned :
    serializeStates [⟨[], 1, true⟩, ⟨[], 1, false⟩, ⟨[], 1, true⟩] =
      [⟨0, 1, []⟩, ⟨2, 1, []⟩] ∧
    deserStates 0 2 [⟨0, 1, []⟩, ⟨2, 1, []⟩] 1 =
      some [⟨[], 1, true⟩, ⟨[], 1, false⟩, ⟨[], 1, false⟩, ⟨[], 1, true⟩] :=
  ⟨rfl, rfl⟩

/-! ## Pipeline invalidation: C1 -/

/-- The post-take invariant: once the producer has taken a re-seed
snapshot `u` with step size `h`, the buffer holds an initial segment of
the chain `f h u, f h (f h u), …` and the producer's working state (and
pending compute, if any) continue that chain. -/
def ChainInv {σ H : Type} (f : H → σ → σ) (u : σ) (h : H) (S : PipeState σ H) : Prop :=
  (S.gen.initial = none → S.gen.stepSize = h) ∧
  ∃ k : ℕ,
    S.gen.newStates = (List.range k).map (fun i => chainIter f h u (i + 1)) ∧
    (match S.prod with
     | .idle w => w = some (chainIter f h u k)
     | .computing w c => w = chainIter f h u k ∧ c = chainIter f h u (k + 1))

lemma lockPass_take {σ H : Type} (f : H → σ → σ) (g : GenState σ H) (w : Option σ) (u : σ)
    (hg : g.initial = some u) :
    lockPass f g w =
      if 0 ≥ g.bufSize then ({ g with initial := none, newStates := [] }, .idle (some u))
      else ({ g with initial := none, newStates := [] }, .computing u (f g.stepSize u)) := by
  simp only [lockPass, hg, List.length_nil]

lemma lockPass_pass {σ H : Type} (f : H → σ → σ) (g : GenState σ H) (w : Option σ)
    (hg : g.initial = none) :
    lockPass f g w =
      if g.newStates.length ≥ g.bufSize then (g, .idle w)
      else
        match w with
        | some s => (g, .computing s (f g.stepSize s))
        | none => (g, .idle none) := by
  simp only [lockPass, hg]

/-- Taking a re-seed snapshot establishes the chain invariant: the buffer
is cleared in the same critical section, so no pre-take snapshot survives. -/
lemma chainInv_of_take {σ H : Type} (f : H → σ → σ) (S : PipeState σ H) (u : σ)
    (e : Ev σ H) (hseed : S.gen.initial = some u) (hobs : observesSeed S e = true) :
    ChainInv f u S.gen.stepSize (stepEv f S e) := by
  cases e with
  | wake =>
    cases hp : S.prod with
    | computing w c => rw [observesSeed, hp] at hobs; cases hobs
    | idle w =>
      simp only [stepEv, hp, lockPass_take f S.gen w u hseed]
      by_cases hbuf : 0 ≥ S.gen.bufSize
      · rw [if_pos hbuf]
        exact ⟨fun _ => rfl, 0, by simp, rfl⟩
      · rw [if_neg hbuf]
        exact ⟨fun _ => rfl, 0, by simp, rfl, rfl⟩
  | finish =>
    cases hp : S.prod with
    | idle w => rw [observesSeed, hp] at hobs; cases hobs
    | computing w c =>
      rw [observesSeed, hp, Bool.and_eq_true, decide_eq_true_eq] at hobs
      have hlt : S.gen.newStates.length < S.gen.bufSize := hobs.1
      simp only [stepEv, hp, if_neg (Nat.not_le.2 hlt)]
      rw [lockPass_take f _ (some c) u (by exact hseed)]
      by_cases hbuf : 0 ≥ S.gen.bufSize
      · rw [if_pos hbuf]
        exact ⟨fun _ => rfl, 0, by simp, rfl⟩
      · rw [if_neg hbuf]
        exact ⟨fun _ => rfl, 0, by simp, rfl, rfl⟩
  | reseed u2 h2 t cut => rw [observesSeed] at hobs; cases hobs
  | drain t => rw [observesSeed] at hobs; cases hobs

/-- Every non-take, non-drain event preserves the chain invariant. -/
lemma chainInv_step {σ H : Type} (f : H → σ → σ) (u : σ) (h : H) (S : PipeState σ H)
    (e : Ev σ H) (hinv : ChainInv f u h S) (hobs : observesSeed S e = false)
    (hd : ∀ t, e ≠ .drain t) : ChainInv f u h (stepEv f S e) := by
  obtain ⟨h1, k, hbuf, hprod⟩ := hinv
  cases e with
  | wake =>
    cases hp : S.prod with
    | computing w c =>
      rw [hp] at hprod
      simp only [stepEv, hp]
      exact ⟨h1, k, hbuf, hp ▸ hprod⟩
    | idle w =>
      rw [hp] at hprod
      replace hprod : w = some (chainIter f h u k) := hprod
      have hnone : S.gen.initial = none := by
        cases hi : S.gen.initial with
        | none => rfl
        | some v => rw [observesSeed, hp, hi] at hobs; simp at hobs
      simp only [stepEv, hp, lockPass_pass f S.gen w hnone]
      by_cases hfull : S.gen.newStates.length ≥ S.gen.bufSize
      · rw [if_pos hfull]
        exact ⟨h1, k, hbuf, hprod⟩
      · rw [if_neg hfull, hprod]
        refine ⟨h1, k, hbuf, rfl, ?_⟩
        rw [h1 hnone]
        rfl
  | finish =>
    cases hp : S.prod with
    | idle w =>
      simp only [stepEv, hp]
      exact ⟨h1, k, hbuf, hp ▸ hprod⟩
    | computing w c =>
      rw [hp] at hprod
      replace hprod : w = chainIter f h u k ∧ c = chainIter f h u (k + 1) := hprod
      obtain ⟨hwk, hck⟩ := hprod
      by_cases hfull : S.gen.newStates.length ≥ S.gen.bufSize
      · simp only [stepEv, hp, if_pos hfull]
        exact ⟨h1, k, hbuf, by rw [hwk]⟩
      · have hinit : S.gen.initial = none := by
          cases hi : S.gen.initial with
          | none => rfl
          | some v => rw [observesSeed, hp, hi] at hobs; simp [Nat.not_le.1 hfull] at hobs
        have hchain1 : S.gen.newStates ++ [c] =
            (List.range (k + 1)).map (fun i => chainIter f h u (i + 1)) := by
          rw [hbuf, hck, List.range_succ, List.map_append]
          rfl
        simp only [stepEv, hp, if_neg hfull]
        rw [lockPass_pass f _ (some c) (by exact hinit)]
        by_cases hfull2 : (S.gen.newStates ++ [c]).length ≥ S.gen.bufSize
        · rw [if_pos (by exact hfull2)]
          exact ⟨h1, k + 1, hchain1, by rw [hck]⟩
        · rw [if_neg (by exact hfull2)]
          refine ⟨h1, k + 1, hchain1, by rw [hck], ?_⟩
          rw [h1 hinit, hck]
          rfl
  | reseed u2 h2 t cut =>
    refine ⟨?_, k, hbuf, hprod⟩
    intro hnone
    simp only [stepEv] at hnone
    cases hnone
  | drain t => exact absurd rfl (hd t)

/-- The chain invariant is preserved along any trace without a further
take and without a drain. -/
lemma chainInv_run {σ H : Type} (f : H → σ → σ) (u : σ) (h : H) :
    ∀ (es : List (Ev σ H)) (S : PipeState σ H), ChainInv f u h S →
      noTake f S es = true → noDrain es = true → ChainInv f u h (runEv f S es) := by
  intro es
  induction es with
  | nil => intro S hinv _ _; exact hinv
  | cons e es ih =>
    intro S hinv hnt hnd
    simp only [noTake, Bool.and_eq_true, Bool.not_eq_true'] at hnt
    obtain ⟨hobs, hnt'⟩ := hnt
    have hpair : (∀ t, e ≠ Ev.drain t) ∧ noDrain (σ := σ) (H := H) es = true := by
      cases e with
      | drain t => simp only [noDrain] at hnd; cases hnd
      | wake => exact ⟨(fun t ht => nomatch ht), (by simpa only [noDrain] using hnd)⟩
      | finish => exact ⟨(fun t ht => nomatch ht), (by simpa only [noDrain] using hnd)⟩
      | reseed a b c d => exact ⟨(fun t ht => nomatch ht), (by simpa only [noDrain] using hnd)⟩
    exact ih _ (chainInv_step f u h S e hinv hobs hpair.1) hnt' hpair.2

/-- C1: once the producer observes a re-seed (takes `initial_state`, which
clears the buffer in the same critical section), then — as long as it does
not observe a further re-seed and the consumer has not yet drained — every
buffered snapshot is an iterate of the new seed under the step in effect
at the take (no stale pre-re-seed snapshot survives), the first buffered
entry is exactly one step of the new seed, and a drain hands the consumer
exactly this buffer, appended to the timeline in order. -/
theorem c1_pipeline_invalidation {σ H : Type} (f : H → σ → σ) (S : PipeState σ H)
    (u : σ) (e : Ev σ H) (es : List (Ev σ H)) (hseed : S.gen.initial = some u)
    (hobs : observesSeed S e = true) (hnt : noTake f (stepEv f S e) es = true)
    (hnd : noDrain es = true) :
    ((runEv f (stepEv f S e) es).gen.newStates ≠ [] →
      (runEv f (stepEv f S e) es).gen.newStates.head? = some (f S.gen.stepSize u)) ∧
    (∀ x ∈ (runEv f (stepEv f S e) es).gen.newStates,
      ∃ k, x = chainIter f S.gen.stepSize u (k + 1)) ∧
    (∀ t, (stepEv f (runEv f (stepEv f S e) es) (Ev.drain t)).timeline =
      (runEv f (stepEv f S e) es).timeline ++ (runEv f (stepEv f S e) es).gen.newStates) := by
  have hinv := chainInv_run f u S.gen.stepSize es (stepEv f S e)
    (chainInv_of_take f S u e hseed hobs) hnt hnd
  obtain ⟨-, k, hbuf, -⟩ := hinv
  refine ⟨?_, ?_, fun t => rfl⟩
  · intro hne
    rw [hbuf] at hne ⊢
    cases k with
    | zero => simp at hne
    | succ k' =>
      rw [List.range_succ_eq_map, List.map_cons, List.head?_cons]
      rfl
  · intro x hx
    rw [hbuf] at hx
    obtain ⟨i, hi, rfl⟩ := List.mem_map.1 hx
    exact ⟨i, rfl⟩

/-- A concrete pipeline state: a pending re-seed snapshot `100` with step
size `7` and a stale buffer `[5, 6]`. -/
def pipeDemo : PipeState ℕ ℕ :=
  { gen := { initial := some 100, newStates := [5, 6], bufSize := 3, stepSize := 7 }
    prod := .idle none
    timeline := [] }

/-- C1 witness: after the producer wakes (taking seed 100 and discarding
the stale buffer) and finishes one compute, the first buffered entry is
one step of the new seed. -/
theorem c1_witness :
    observesSeed pipeDemo Ev.wake = true ∧
    (runEv (fun (h n : ℕ) => n + h) (stepEv (fun (h n : ℕ) => n + h) pipeDemo .wake)
        [.finish]).gen.newStates.head? = some (100 + 7) :=
  ⟨rfl,
    (c1_pipeline_invalidation (fun (h n : ℕ) => n + h) pipeDemo 100 .wake [.finish]
        rfl rfl (by decide) rfl).1 (by decide)⟩

end Orbit
